import Mathlib

/-!
Verification of the SmartFileSorter rule-matching and file-routing engine.

Strings are modelled as `List Char`.  Python semantics are embedded as
follows: `str.lower()` is `List.map Char.toLower` (ASCII case folding; the
repository data itself is Chinese and ASCII, where Python and this model
agree), `str.strip()` trims the whitespace characters listed in `pyWs`,
`re.split` on a character class followed by `+` is `splitRuns`, and
`str.split` on a single character is `splitOnChar`.
-/

namespace SFS

/-- Python whitespace characters recognised by `str.strip()` (ASCII
whitespace together with NEL, NBSP and the ideographic space, the forms
that can occur in the data of this repository). -/
def pyWs (c : Char) : Bool :=
  c == ' ' || c == '\t' || c == '\n' || c == '\r' ||
  c == Char.ofNat 11 || c == Char.ofNat 12 ||
  c == Char.ofNat 133 || c == Char.ofNat 160 || c == Char.ofNat 0x3000

/-- Python `s.strip()`: remove leading and trailing whitespace. -/
def pyStrip (s : List Char) : List Char :=
  ((s.dropWhile pyWs).reverse.dropWhile pyWs).reverse

/-- Python `s.lower()` (ASCII case folding). -/
def pyLower (s : List Char) : List Char :=
  s.map Char.toLower

/-- The character class `[,，]` used by `normalize_exts`. -/
def isComma (c : Char) : Bool :=
  c == ',' || c == '，'

/-- The character class `[ ,，;；/|\t\n]` used by `parse_keywords`. -/
def isKwSep (c : Char) : Bool :=
  c == ' ' || c == ',' || c == '，' || c == ';' || c == '；' ||
  c == '/' || c == '|' || c == '\t' || c == '\n'

/-- Split at every character satisfying `p`, keeping empty pieces.
The result is never empty. -/
def splitByChar (p : Char → Bool) : List Char → List (List Char)
  | [] => [[]]
  | c :: rest =>
    if p c then [] :: splitByChar p rest
    else
      match splitByChar p rest with
      | [] => [[c]]
      | t :: ts => (c :: t) :: ts

/-- Drop empty pieces that are neither the first nor the last element;
applied to the tail of a `splitByChar` result this collapses separator
runs the way the regex `class+` does. -/
def collapseMid : List (List Char) → List (List Char)
  | [] => []
  | [x] => [x]
  | x :: xs => if x = [] then collapseMid xs else x :: collapseMid xs

/-- Python `re.split` on `class+`: split at maximal runs of class characters.
Interior empty pieces never occur; an empty piece appears at an end
exactly when the text starts or ends with a class character. -/
def splitRuns (p : Char → Bool) (s : List Char) : List (List Char) :=
  match splitByChar p s with
  | [] => []
  | x :: xs => x :: collapseMid xs

/-- Python `s.split(sep)` for a one-character separator: split at every
occurrence, keeping empty pieces. -/
def splitOnChar (sep : Char) (s : List Char) : List (List Char) :=
  splitByChar (fun c => c == sep) s

/-- The function `normalize_exts`: split on commas, trim, strip leading dots,
lowercase, dropping pieces that are empty after trimming. -/
def normalize_exts (s : List Char) : List (List Char) :=
  if s = [] then []
  else (splitRuns isComma s).filterMap (fun p =>
    if pyStrip p ≠ [] then
      some (pyLower ((pyStrip p).dropWhile (fun c => c == '.')))
    else none)

/-- The trim-filter-deduplicate loop of `parse_keywords`, carrying the
`seen` set. -/
def filterDedup (seen : List (List Char)) : List (List Char) → List (List Char)
  | [] => []
  | p :: rest =>
    let k := pyStrip p
    if k ≠ [] ∧ k ∉ seen then k :: filterDedup (k :: seen) rest
    else filterDedup seen rest

/-- The function `parse_keywords`: split the trimmed text on separators, trim each
piece, drop empties and duplicates keeping first occurrences. -/
def parse_keywords (s : List Char) : List (List Char) :=
  if s = [] then [] else filterDedup [] (splitRuns isKwSep (pyStrip s))

/-- The Python substring test `sub in hay` (contiguous substring). -/
def containsSub (sub : List Char) : List Char → Bool
  | [] => sub.isPrefixOf []
  | c :: t => sub.isPrefixOf (c :: t) || containsSub sub t

/-- The function `file_matches`: extension filter (suffix `.ext` on the lowercased
name, permissive when the list is empty) and keyword filter (substring,
permissive when the list is empty). -/
def file_matches (name : List Char) (keywords exts : List (List Char)) : Bool :=
  let low := pyLower name
  if exts ≠ [] && !(exts.any (fun e => List.isSuffixOf ('.' :: e) low)) then false
  else if keywords = [] then true
  else keywords.any (fun k => containsSub (pyLower k) low)

/-- A routing rule: a `|`-separated keyword pattern and a target folder. -/
structure MoveRule where
  pattern : List Char
  target : List Char
deriving DecidableEq

/-- The tokens of a rule pattern: split on `|`, keep pieces that are
non-empty after trimming, trimmed and lowercased. -/
def rule_keys (pat : List Char) : List (List Char) :=
  (splitOnChar '|' pat).filterMap (fun x =>
    if pyStrip x ≠ [] then some (pyLower (pyStrip x)) else none)

/-- The function `match_routes_for_name`: scan the rules in order, recording the
(pattern, target) pair of every rule one of whose tokens is a substring
of the lowercased name (at most once per rule). -/
def match_routes_for_name (name : List Char) (routes : List MoveRule) :
    List (List Char × List Char) :=
  match routes with
  | [] => []
  | r :: rest =>
    if (rule_keys r.pattern).any (fun k => k ≠ [] && containsSub k (pyLower name))
    then (r.pattern, r.target) :: match_routes_for_name name rest
    else match_routes_for_name name rest

/-! ## Paths and the file-system model

Paths are POSIX-style strings.  The file system is a finite list of
`(path, content)` entries for the regular files; directories are implicit
(`os.makedirs` never touches the set of regular files, so it is the
identity in this model). -/

/-- Python `os.path.isabs`: the path starts with a slash. -/
def isAbs (p : List Char) : Bool :=
  match p with
  | '/' :: _ => true
  | _ => false

/-- Python `os.path.join` for two components. -/
def joinPath (a b : List Char) : List Char :=
  if isAbs b then b
  else if a = [] then b
  else if a.getLast? = some '/' then a ++ b
  else a ++ '/' :: b

/-- Python `os.path.basename`: everything after the last slash. -/
def basename (p : List Char) : List Char :=
  (p.reverse.takeWhile (fun c => !(c == '/'))).reverse

/-- Index of the last dot of a name, if any. -/
def lastDotIdx (s : List Char) : Option Nat :=
  match s.reverse.findIdx? (fun c => c == '.') with
  | none => none
  | some r => some (s.length - 1 - r)

/-- Python `os.path.splitext` on a bare file name (no slashes): split at the
last dot unless every character before it is also a dot. -/
def splitextBase (s : List Char) : List Char × List Char :=
  match lastDotIdx s with
  | none => (s, [])
  | some d =>
    if (s.take d).all (fun c => c == '.') then (s, [])
    else (s.take d, s.drop d)

/-- Decimal rendering of a natural number, digit by digit; the first
argument is fuel (`n` itself is always enough). -/
def natCharsAux : Nat → Nat → List Char
  | 0, _ => []
  | fuel + 1, n =>
    if n = 0 then []
    else natCharsAux fuel (n / 10) ++ [Char.ofNat (48 + n % 10)]

/-- Decimal rendering of a natural number (Python `f-string` formatting). -/
def natChars (n : Nat) : List Char :=
  if n = 0 then [ '0' ] else natCharsAux n n

/-- The value a decimal digit string denotes; left inverse of `natChars`. -/
def decVal (l : List Char) : Nat :=
  l.foldl (fun a c => 10 * a + (c.toNat - 48)) 0

/-- File system: regular files with their contents. -/
abbrev FSys := List (List Char × List Char)

/-- Python `os.path.exists` restricted to the modelled regular files. -/
def pathExists (fs : FSys) (p : List Char) : Bool :=
  fs.any (fun e => e.1 == p)

/-- Content of a file, if present. -/
def readFS (fs : FSys) (p : List Char) : Option (List Char) :=
  List.lookup p fs

/-- Remove a path (used by `shutil.move` for the source). -/
def removePath (fs : FSys) (p : List Char) : FSys :=
  fs.filter (fun e => !(e.1 == p))

/-- The collision candidate `destinationDir/name(i)ext`. -/
def candPath (dst name ext : List Char) (i : Nat) : List Char :=
  joinPath dst (name ++ '(' :: (natChars i ++ ')' :: ext))

lemma decVal_append (l : List Char) (c : Char) :
    decVal (l ++ [c]) = 10 * decVal l + (c.toNat - 48) := by
  simp [decVal, List.foldl_append]

lemma decVal_natCharsAux : ∀ fuel n, n ≤ fuel → decVal (natCharsAux fuel n) = n := by
  intro fuel
  induction fuel with
  | zero =>
    intro n hn
    interval_cases n
    simp [natCharsAux, decVal]
  | succ f ih =>
    intro n hn
    by_cases h0 : n = 0
    · simp [natCharsAux, h0, decVal]
    · have hdiv : n / 10 ≤ f := by
        have : n / 10 < n := Nat.div_lt_self (Nat.pos_of_ne_zero h0) (by omega)
        omega
      have hdigit : (Char.ofNat (48 + n % 10)).toNat = 48 + n % 10 := by
        have hlt : n % 10 < 10 := Nat.mod_lt _ (by omega)
        unfold Char.ofNat
        split
        · rfl
        · rename_i hv
          exfalso
          apply hv
          constructor
          omega
      rw [natCharsAux]
      simp only [h0, if_false]
      rw [decVal_append, ih _ hdiv, hdigit]
      omega

lemma decVal_natChars (n : Nat) : decVal (natChars n) = n := by
  by_cases h0 : n = 0
  · simp [natChars, h0, decVal]
  · rw [natChars, if_neg h0]
    exact decVal_natCharsAux n n le_rfl

lemma natChars_inj {m n : Nat} (h : natChars m = natChars n) : m = n := by
  have := congrArg decVal h
  rwa [decVal_natChars, decVal_natChars] at this

lemma natCharsAux_digit_range :
    ∀ fuel n c, c ∈ natCharsAux fuel n → 48 ≤ c.toNat ∧ c.toNat ≤ 57 := by
  intro fuel
  induction fuel with
  | zero =>
    intro n c hc
    simp [natCharsAux] at hc
  | succ f ih =>
    intro n c hc
    rw [natCharsAux] at hc
    by_cases h0 : n = 0
    · simp [h0] at hc
    · rw [if_neg h0] at hc
      rcases List.mem_append.1 hc with h | h
      · exact ih _ _ h
      · have hc2 : c = Char.ofNat (48 + n % 10) := by simpa using h
        have hlt : n % 10 < 10 := Nat.mod_lt _ (by omega)
        have : (Char.ofNat (48 + n % 10)).toNat = 48 + n % 10 := by
          unfold Char.ofNat
          split
          · rfl
          · rename_i hv
            exfalso
            apply hv
            constructor
            omega
        rw [hc2, this]
        omega

lemma natChars_digit_range {n : Nat} {c : Char} (hc : c ∈ natChars n) :
    48 ≤ c.toNat ∧ c.toNat ≤ 57 := by
  by_cases h0 : n = 0
  · simp [natChars, h0] at hc
    subst hc
    decide
  · rw [natChars, if_neg h0] at hc
    exact natCharsAux_digit_range n n c hc

lemma paren_not_mem_natChars (n : Nat) : (')' : Char) ∉ natChars n := by
  intro hmem
  have := natChars_digit_range hmem
  revert this
  decide

/-- Splitting a list at a marker character occurring in neither prefix is
unambiguous. -/
lemma append_cons_inj {c : Char} :
    ∀ {a b x y : List Char}, c ∉ a → c ∉ b → a ++ c :: x = b ++ c :: y →
      a = b ∧ x = y := by
  intro a
  induction a with
  | nil =>
    intro b x y _ hb h
    cases b with
    | nil => simpa using h
    | cons d b2 =>
      simp only [List.nil_append, List.cons_append, List.cons.injEq] at h
      exact absurd (h.1 ▸ List.mem_cons_self d b2) (by simpa [← h.1] using hb)
  | cons d a2 ih =>
    intro b x y ha hb h
    cases b with
    | nil =>
      simp only [List.cons_append, List.nil_append, List.cons.injEq] at h
      exact absurd (h.1 ▸ List.mem_cons_self d a2) (by simpa [h.1] using ha)
    | cons e b2 =>
      simp only [List.cons_append, List.cons.injEq] at h
      obtain ⟨rfl, h2⟩ := h
      have := ih (fun hm => ha (List.mem_cons_of_mem _ hm))
        (fun hm => hb (List.mem_cons_of_mem _ hm)) h2
      exact ⟨by rw [this.1], this.2⟩

lemma isAbs_cons (c : Char) (l : List Char) :
    isAbs (c :: l) = decide (c = '/') := by
  by_cases hc : c = '/'
  · subst hc
    simp [isAbs]
  · have h1 : isAbs (c :: l) = false := by
      unfold isAbs
      split
      · rename_i tail heq
        injection heq with h1 h2
        exact absurd h1 hc
      · rfl
    rw [h1]
    simp [hc]

lemma candPath_inj {dst name ext : List Char} {i j : Nat}
    (h : candPath dst name ext i = candPath dst name ext j) : i = j := by
  have hbody : name ++ '(' :: (natChars i ++ ')' :: ext) =
      name ++ '(' :: (natChars j ++ ')' :: ext) := by
    unfold candPath joinPath at h
    have habs : isAbs (name ++ '(' :: (natChars j ++ ')' :: ext)) =
        isAbs (name ++ '(' :: (natChars i ++ ')' :: ext)) := by
      cases name with
      | nil => simp [isAbs_cons]
      | cons c r => simp only [List.cons_append, isAbs_cons]
    rw [habs] at h
    by_cases hb : isAbs (name ++ '(' :: (natChars i ++ ')' :: ext)) = true
    · simpa [hb] using h
    · rw [if_neg hb, if_neg hb] at h
      by_cases hd : dst = []
      · simpa [hd] using h
      · rw [if_neg hd, if_neg hd] at h
        by_cases hl : dst.getLast? = some '/'
        · rw [if_pos hl, if_pos hl] at h
          exact List.append_cancel_left h
        · rw [if_neg hl, if_neg hl] at h
          have h2 := List.append_cancel_left h
          injection h2
  have h2 : natChars i ++ ')' :: ext = natChars j ++ ')' :: ext := by
    have h3 := List.append_cancel_left hbody
    injection h3
  exact natChars_inj ((append_cons_inj (paren_not_mem_natChars i)
    (paren_not_mem_natChars j) h2).1)

lemma pathExists_iff_mem (fs : FSys) (p : List Char) :
    pathExists fs p = true ↔ p ∈ fs.map Prod.fst := by
  simp [pathExists, List.any_eq_true, List.mem_map]

/-- The sequential collision search always has a free slot to find: the
candidate names are pairwise distinct while the file system is finite. -/
lemma exists_free_slot (fs : FSys) (dst name ext : List Char) :
    ∃ i, 1 ≤ i ∧ pathExists fs (candPath dst name ext i) = false := by
  have hfin : {i : Nat | pathExists fs (candPath dst name ext i) = true}.Finite := by
    have hsub : {i : Nat | pathExists fs (candPath dst name ext i) = true} =
        Set.preimage (candPath dst name ext) {p | p ∈ fs.map Prod.fst} := by
      ext i
      simp [Set.preimage, pathExists_iff_mem]
    rw [hsub]
    exact Set.Finite.preimage
      (fun a _ b _ hab => candPath_inj hab) (List.finite_toSet _)
  obtain ⟨N, hN⟩ := hfin.bddAbove
  refine ⟨N + 1, by omega, ?_⟩
  rcases hcase : pathExists fs (candPath dst name ext (N + 1)) with _ | _
  · rfl
  · have : N + 1 ≤ N := hN hcase
    omega

/-- The function `safe_copy`: copy `src` into directory `dst`, never overwriting; the
content written is that of `src` (`shutil.copy2`; a missing source would
raise in Python, theorems about content assume the source is present).
`os.makedirs` only creates directories, which this model does not track. -/
def safe_copy (fs : FSys) (src dst : List Char) : List Char × FSys :=
  let base := basename src
  let target := joinPath dst base
  if pathExists fs target = false then
    (target, (target, (readFS fs src).getD []) :: fs)
  else
    let ne := splitextBase base
    let i := Nat.find (exists_free_slot fs dst ne.1 ne.2)
    let nt := candPath dst ne.1 ne.2 i
    (nt, (nt, (readFS fs src).getD []) :: fs)

/-- The function `safe_move`: like `safe_copy` but the source entry is removed
(`shutil.move`). -/
def safe_move (fs : FSys) (src dst : List Char) : List Char × FSys :=
  let base := basename src
  let target := joinPath dst base
  if pathExists fs target = false then
    (target, (target, (readFS fs src).getD []) :: removePath fs src)
  else
    let ne := splitextBase base
    let i := Nat.find (exists_free_slot fs dst ne.1 ne.2)
    let nt := candPath dst ne.1 ne.2 i
    (nt, (nt, (readFS fs src).getD []) :: removePath fs src)

/-! ## Routing orchestrator (`execute_move` with the auto-first policy) -/

/-- The target chosen from the match list: the base directory when no
rule matches, otherwise the target of the first match (under
`auto_use_first_rule` a single match and several matches coincide on the
head of the list). -/
def chooseTargetAutoFirst (base : List Char)
    (ms : List (List Char × List Char)) : List Char :=
  match ms with
  | [] => base
  | [m] => m.2
  | m :: _ => m.2

/-- Resolution `dest = target if os.path.isabs(target) else os.path.join(base, target)`. -/
def resolveDest (base target : List Char) : List Char :=
  if isAbs target then target else joinPath base target

/-- The absolute destination directory `execute_move` picks for one
scanned file under the auto-first policy. -/
def destFor (base : List Char) (routes : List MoveRule) (f : List Char) :
    List Char :=
  resolveDest base (chooseTargetAutoFirst base (match_routes_for_name (basename f) routes))

/-- One per-file log record of the processing loop. -/
inductive BatchLog where
  | ok (fn dest : List Char)
  | fail (fn cause : List Char)
deriving DecidableEq

/-- The per-file processing loop of `execute_move` (also `do_move`),
abstracted over the effect of `os.makedirs` (`mk`) and of the
`safe_copy`/`safe_move` call (`tr`).  `os.makedirs(dest)` runs OUTSIDE
the `try` block in the source, so its exception propagates and aborts
the loop (`Except.error`); the transfer runs inside `try`/`except`, so
its failure is logged with the base name of the file and the cause, counted,
and the loop continues.  Returns (succeeded, failed, per-file log). -/
def execute_move_loop (base : List Char)
    (mk : List Char → Except (List Char) Unit)
    (tr : List Char → List Char → Except (List Char) (List Char)) :
    List (List Char × List Char) → Except (List Char) (Nat × Nat × List BatchLog)
  | [] => Except.ok (0, 0, [])
  | (f, target) :: rest =>
    let dest := if isAbs target then target else joinPath base target
    match mk dest with
    | Except.error e => Except.error e
    | Except.ok _ =>
      match tr f dest, execute_move_loop base mk tr rest with
      | _, Except.error e => Except.error e
      | Except.ok newp, Except.ok (m, fl, lg) =>
        Except.ok (m + 1, fl, BatchLog.ok (basename f) newp :: lg)
      | Except.error e, Except.ok (m, fl, lg) =>
        Except.ok (m, fl + 1, BatchLog.fail (basename f) e :: lg)

/-- A `makedirs` behaviour that raises on one specific directory. -/
def mkFailOn (bad : List Char) : List Char → Except (List Char) Unit :=
  fun d => if d = bad then Except.error (r"makedirs-error").data else Except.ok ()

/-- A transfer behaviour that always succeeds, returning the source path. -/
def trOk : List Char → List Char → Except (List Char) (List Char) :=
  fun f _ => Except.ok f

/-- A transfer behaviour that raises on one specific source file. -/
def trFailOn (bad : List Char) : List Char → List Char → Except (List Char) (List Char) :=
  fun f _ => if f = bad then Except.error (r"io-error").data else Except.ok f

/-! ## JSON configuration model (`load_config`)

`Option Json` models the outcome of opening and parsing the
configuration file: `none` is a missing, unreadable or corrupt file
(everything `json.load` can raise is caught), `some j` a parsed
document. -/

/-- Parsed JSON values.  An `obj` is the key/value list of a parsed
Python dict (keys already deduplicated by `json.loads`). -/
inductive Json where
  | null
  | bool (b : Bool)
  | num (n : Int)
  | str (s : List Char)
  | arr (l : List Json)
  | obj (kvs : List (List Char × Json))

/-- Dict lookup. -/
def jget (kvs : List (List Char × Json)) (k : List Char) : Option Json :=
  List.lookup k kvs

/-- Decimal rendering of an integer. -/
def intChars (n : Int) : List Char :=
  if n < 0 then '-' :: natChars n.natAbs else natChars n.toNat

mutual
/-- Python `repr` of a parsed JSON value (string escaping inside quotes
is not modelled; the claims never evaluate it on strings that would
need escapes). -/
def pyRepr : Json → List Char
  | Json.null => (r"None").data
  | Json.bool true => (r"True").data
  | Json.bool false => (r"False").data
  | Json.num n => intChars n
  | Json.str s => Char.ofNat 39 :: (s ++ [Char.ofNat 39])
  | Json.arr l => '[' :: (pyReprList l ++ [ ']' ])
  | Json.obj kvs => Char.ofNat 123 :: (pyReprKVs kvs ++ [Char.ofNat 125])

/-- The `", "`-separated reprs of a list. -/
def pyReprList : List Json → List Char
  | [] => []
  | [j] => pyRepr j
  | j :: rest => pyRepr j ++ ',' :: ' ' :: pyReprList rest

/-- The `", "`-separated `key: value` reprs of a dict. -/
def pyReprKVs : List (List Char × Json) → List Char
  | [] => []
  | [(k, v)] => pyRepr (Json.str k) ++ ':' :: ' ' :: pyRepr v
  | (k, v) :: rest =>
    pyRepr (Json.str k) ++ ':' :: ' ' :: pyRepr v ++ ',' :: ' ' :: pyReprKVs rest
end

/-- Python `str()` of a parsed JSON value. -/
def pyStr : Json → List Char
  | Json.str s => s
  | j => pyRepr j

/-- A well-formed stored route entry: a dict with both `pattern` and
`target` keys, whose values are passed through `str()`. -/
def toRule (j : Json) : Option MoveRule :=
  match j with
  | Json.obj kvs =>
    match jget kvs (r"pattern").data, jget kvs (r"target").data with
    | some p, some t => some ⟨pyStr p, pyStr t⟩
    | _, _ => none
  | _ => none

/-- The configuration record.  The four scalar fields hold whatever JSON
value the stored document carried (the source copies `data[k]` without
validation); `routes` is always normalised to a rule list. -/
structure Config where
  keywords : Json
  exts : Json
  recursive : Json
  copy_mode : Json
  routes : List MoveRule

/-- Default configuration `DEFAULT_CONFIG`. -/
def default_config : Config :=
  { keywords := Json.arr []
  , exts := Json.arr [Json.str (r"pdf").data, Json.str (r"doc").data,
      Json.str (r"docx").data, Json.str (r"txt").data]
  , recursive := Json.bool true
  , copy_mode := Json.bool false
  , routes := [⟨(r"试卷|卷子").data, (r"试卷").data⟩,
      ⟨(r"练习|作业").data, (r"练习").data⟩] }

/-- The function `load_config`.  A missing/unreadable/corrupt file and a non-dict
document both yield the defaults (the latter because `data.get` raises
inside the guarded block).  A list-shaped `routes` is filtered to its
well-formed entries, which are adopted only when at least one survives;
a dict-shaped `routes` is converted entry-wise to the list form. -/
def load_config (input : Option Json) : Config :=
  match input with
  | none => default_config
  | some (Json.obj data) =>
    let cfg0 := default_config
    let cfg :=
      { cfg0 with
        keywords := (jget data (r"keywords").data).getD cfg0.keywords
        exts := (jget data (r"exts").data).getD cfg0.exts
        recursive := (jget data (r"recursive").data).getD cfg0.recursive
        copy_mode := (jget data (r"copy_mode").data).getD cfg0.copy_mode }
    match jget data (r"routes").data with
    | some (Json.arr l) =>
      let newr := l.filterMap toRule
      if newr ≠ [] then { cfg with routes := newr } else cfg
    | some (Json.obj kvs) =>
      { cfg with routes := kvs.map (fun e => ⟨e.1, pyStr e.2⟩) }
    | _ => cfg
  | some _ => default_config

/-- Join a list of strings with a separator (`sep.join(xs)`). -/
def joinWith (sep : List Char) : List (List Char) → List Char
  | [] => []
  | [x] => x
  | x :: xs => x ++ sep ++ joinWith sep xs

/-- Keep the first occurrence of each element, dropping later
duplicates (the wording once in order of first occurrence). -/
def dedupSpec : List (List Char) → List (List Char)
  | [] => []
  | x :: r => x :: dedupSpec (r.filter (fun y => decide (y ≠ x)))
termination_by l => l.length
decreasing_by
  simp only [List.length_cons]
  exact Nat.lt_succ_of_le (List.length_filter_le _ _)

/-! ## Characterization lemmas -/

lemma containsSub_iff (sub hay : List Char) :
    containsSub sub hay = true ↔ sub <:+: hay := by
  induction hay with
  | nil =>
    simp [containsSub, List.isPrefixOf_iff_prefix, List.infix_nil, List.prefix_nil]
  | cons c t ih =>
    simp [containsSub, List.isPrefixOf_iff_prefix, List.infix_cons_iff, ih]

lemma pyLower_eq_nil {s : List Char} : pyLower s = [] ↔ s = [] := by
  simp [pyLower]

lemma rule_hits_iff (pat low : List Char) :
    (rule_keys pat).any (fun k => k ≠ [] && containsSub k low) = true ↔
      ∃ x ∈ splitOnChar '|' pat,
        pyLower (pyStrip x) ≠ [] ∧ pyLower (pyStrip x) <:+: low := by
  simp only [List.any_eq_true, rule_keys, List.mem_filterMap, Bool.and_eq_true,
    ne_eq, decide_not, Bool.not_eq_true', decide_eq_false_iff_not,
    containsSub_iff]
  constructor
  · rintro ⟨k, ⟨x, hx, hk⟩, hne, hinf⟩
    by_cases hs : pyStrip x ≠ []
    · rw [if_pos hs] at hk
      cases hk
      exact ⟨x, hx, hne, hinf⟩
    · rw [if_neg hs] at hk
      cases hk
  · rintro ⟨x, hx, hne, hinf⟩
    have hs : pyStrip x ≠ [] := fun h => hne (by simp [h, pyLower])
    exact ⟨pyLower (pyStrip x), ⟨x, hx, by rw [if_pos hs]⟩, hne, hinf⟩

/-! ## Character-level lemmas -/

lemma char_toNat_inj {c d : Char} (h : c.toNat = d.toNat) : c = d :=
  Char.eq_of_val_eq (UInt32.ext h)

lemma char_ofNat_toNat {m : Nat} (h : m < 55296) : (Char.ofNat m).toNat = m := by
  unfold Char.ofNat
  split
  · rfl
  · rename_i hv
    exact absurd (Or.inl h) hv

lemma toLower_toNat (c : Char) :
    (Char.toLower c).toNat =
      if 65 ≤ c.toNat ∧ c.toNat ≤ 90 then c.toNat + 32 else c.toNat := by
  by_cases h : 65 ≤ c.toNat ∧ c.toNat ≤ 90
  · rw [if_pos h]
    have heq : Char.toLower c = Char.ofNat (c.toNat + 32) := by
      simp only [Char.toLower]
      rw [if_pos (show c.toNat ≥ 65 ∧ c.toNat ≤ 90 from ⟨h.1, h.2⟩)]
    rw [heq, char_ofNat_toNat (by omega)]
  · rw [if_neg h]
    have heq : Char.toLower c = c := by
      simp only [Char.toLower]
      rw [if_neg (fun hc => h ⟨hc.1, hc.2⟩)]
    rw [heq]

lemma toLower_idem (c : Char) :
    Char.toLower (Char.toLower c) = Char.toLower c := by
  apply char_toNat_inj
  rw [toLower_toNat, toLower_toNat]
  split_ifs <;> omega

lemma pyLower_idem (s : List Char) : pyLower (pyLower s) = pyLower s := by
  rw [pyLower, pyLower, List.map_map]
  exact List.map_congr_left (fun c _ => toLower_idem c)

lemma beq_char_eq_decide_toNat (c d : Char) :
    (c == d) = decide (c.toNat = d.toNat) := by
  by_cases h : c = d
  · subst h
    simp
  · have h2 : ¬ c.toNat = d.toNat := fun hn => h (char_toNat_inj hn)
    simp [h, h2]

lemma isComma_eq (c : Char) :
    isComma c = (decide (c.toNat = 44) || decide (c.toNat = 65292)) := by
  rw [isComma, beq_char_eq_decide_toNat, beq_char_eq_decide_toNat]
  rfl

lemma isComma_toLower (c : Char) :
    isComma (Char.toLower c) = isComma c := by
  rw [isComma_eq, isComma_eq, toLower_toNat]
  split_ifs with h
  · have e1 : decide (c.toNat + 32 = 44) = false := decide_eq_false (by omega)
    have e2 : decide (c.toNat + 32 = 65292) = false := decide_eq_false (by omega)
    have e3 : decide (c.toNat = 44) = false := decide_eq_false (by omega)
    have e4 : decide (c.toNat = 65292) = false := decide_eq_false (by omega)
    rw [e1, e2, e3, e4]
  · rfl

lemma dot_beq_toLower (c : Char) :
    (Char.toLower c == '.') = (c == '.') := by
  rw [beq_char_eq_decide_toNat, beq_char_eq_decide_toNat, toLower_toNat]
  split_ifs with h
  · have e1 : decide (c.toNat + 32 = ('.' : Char).toNat) = false :=
      decide_eq_false (by
        have : ('.' : Char).toNat = 46 := rfl
        omega)
    have e2 : decide (c.toNat = ('.' : Char).toNat) = false :=
      decide_eq_false (by
        have : ('.' : Char).toNat = 46 := rfl
        omega)
    rw [e1, e2]
  · rfl

/-! ## Trim (`pyStrip`) lemmas -/

lemma dropWhile_head_false {p : Char → Bool} :
    ∀ {l : List Char} {c : Char} {t : List Char},
      l.dropWhile p = c :: t → p c = false := by
  intro l
  induction l with
  | nil =>
    intro c t h
    simp [List.dropWhile] at h
  | cons d r ih =>
    intro c t h
    rw [List.dropWhile_cons] at h
    by_cases hd : p d = true
    · rw [if_pos hd] at h
      exact ih h
    · rw [if_neg hd] at h
      injection h with h1 h2
      subst h1
      exact Bool.not_eq_true _ ▸ hd

lemma pyStrip_prefix_dropWhile (s : List Char) :
    pyStrip s <+: s.dropWhile pyWs := by
  rw [pyStrip]
  have h := List.dropWhile_suffix (l := (s.dropWhile pyWs).reverse) pyWs
  rw [← List.reverse_prefix] at h
  simpa using h

lemma mem_pyStrip {s : List Char} {c : Char} (h : c ∈ pyStrip s) : c ∈ s :=
  ((pyStrip_prefix_dropWhile s).sublist.trans (List.dropWhile_suffix pyWs).sublist).mem h

lemma pyStrip_head_false {s : List Char} {c : Char} {t : List Char}
    (h : pyStrip s = c :: t) : pyWs c = false := by
  obtain ⟨u, hu⟩ := pyStrip_prefix_dropWhile s
  rw [h] at hu
  exact dropWhile_head_false hu.symm

lemma pyStrip_getLast_false {s : List Char} {c : Char}
    (h : (pyStrip s).getLast? = some c) : pyWs c = false := by
  rw [pyStrip, List.getLast?_reverse] at h
  rw [List.head?_eq_some_iff] at h
  obtain ⟨ys, hy⟩ := h
  exact dropWhile_head_false hy

lemma pyStrip_eq_self {s : List Char}
    (h1 : ∀ c, s.head? = some c → pyWs c = false)
    (h2 : ∀ c, s.getLast? = some c → pyWs c = false) :
    pyStrip s = s := by
  have hu : s.dropWhile pyWs = s := by
    cases s with
    | nil => rfl
    | cons c t =>
      rw [List.dropWhile_cons, if_neg (by simp [h1 c rfl])]
  rw [pyStrip, hu]
  have hr : s.reverse.dropWhile pyWs = s.reverse := by
    cases hsr : s.reverse with
    | nil => rfl
    | cons c t =>
      have hc : s.getLast? = some c := by
        rw [← List.head?_reverse, hsr]
        rfl
      rw [List.dropWhile_cons, if_neg (by simp [h2 c hc])]
  rw [hr, List.reverse_reverse]

lemma pyStrip_idem (s : List Char) : pyStrip (pyStrip s) = pyStrip s := by
  apply pyStrip_eq_self
  · intro c hc
    rw [List.head?_eq_some_iff] at hc
    obtain ⟨ys, hy⟩ := hc
    exact pyStrip_head_false hy
  · intro c hc
    exact pyStrip_getLast_false hc

/-! ## Split / join lemmas -/

lemma splitByChar_cons_true {p : Char → Bool} {c : Char} (hc : p c = true)
    (s : List Char) : splitByChar p (c :: s) = [] :: splitByChar p s := by
  simp [splitByChar, hc]

lemma splitByChar_cons_false {p : Char → Bool} {c : Char} (hc : p c = false)
    (s : List Char) :
    splitByChar p (c :: s) =
      match splitByChar p s with
      | [] => [[c]]
      | t :: ts => (c :: t) :: ts := by
  simp [splitByChar, hc]

lemma splitByChar_ne_nil (p : Char → Bool) (s : List Char) :
    splitByChar p s ≠ [] := by
  cases s with
  | nil => simp [splitByChar]
  | cons c rest =>
    by_cases hc : p c = true
    · rw [splitByChar_cons_true hc]
      simp
    · rw [splitByChar_cons_false (Bool.not_eq_true _ ▸ hc)]
      rcases h : splitByChar p rest with _ | ⟨x, xs⟩ <;> simp

lemma splitByChar_append {p : Char → Bool} {tok : List Char}
    (htok : ∀ c ∈ tok, p c = false) (rest : List Char) :
    splitByChar p (tok ++ rest) =
      match splitByChar p rest with
      | [] => [tok]
      | h :: t => (tok ++ h) :: t := by
  induction tok with
  | nil =>
    rcases h : splitByChar p rest with _ | ⟨x, xs⟩
    · exact absurd h (splitByChar_ne_nil p rest)
    · simp [h]
  | cons c tok2 ih =>
    have hc : p c = false := htok c (List.mem_cons_self _ _)
    have ih2 := ih (fun d hd => htok d (List.mem_cons_of_mem _ hd))
    rw [List.cons_append, splitByChar_cons_false hc, ih2]
    rcases h : splitByChar p rest with _ | ⟨x, xs⟩
    · exact absurd h (splitByChar_ne_nil p rest)
    · simp

lemma splitByChar_pieces {p : Char → Bool} :
    ∀ {s piece : List Char}, piece ∈ splitByChar p s → ∀ c ∈ piece, p c = false := by
  intro s
  induction s with
  | nil =>
    intro piece h c hc
    simp [splitByChar] at h
    subst h
    simp at hc
  | cons d rest ih =>
    intro piece h c hc
    by_cases hd : p d = true
    · rw [splitByChar_cons_true hd] at h
      rcases List.mem_cons.1 h with rfl | h2
      · simp at hc
      · exact ih h2 c hc
    · have hd2 : p d = false := Bool.not_eq_true _ ▸ hd
      rw [splitByChar_cons_false hd2] at h
      rcases hsr : splitByChar p rest with _ | ⟨x, xs⟩
      · exact absurd hsr (splitByChar_ne_nil _ _)
      · rw [hsr] at h
        rcases List.mem_cons.1 h with rfl | h2
        · rcases List.mem_cons.1 hc with rfl | hc2
          · exact hd2
          · exact ih (hsr ▸ List.mem_cons_self x xs) c hc2
        · exact ih (hsr ▸ List.mem_cons_of_mem x h2) c hc

lemma collapseMid_subset :
    ∀ {l : List (List Char)} {piece : List Char}, piece ∈ collapseMid l → piece ∈ l := by
  intro l
  induction l with
  | nil =>
    intro piece h
    simp [collapseMid] at h
  | cons x xs ih =>
    intro piece h
    cases xs with
    | nil => exact h
    | cons y ys =>
      have hcc : collapseMid (x :: y :: ys) =
          if x = [] then collapseMid (y :: ys) else x :: collapseMid (y :: ys) := rfl
      rw [hcc] at h
      by_cases hx : x = []
      · rw [if_pos hx] at h
        exact List.mem_cons_of_mem _ (ih h)
      · rw [if_neg hx] at h
        rcases List.mem_cons.1 h with rfl | h2
        · exact List.mem_cons_self _ _
        · exact List.mem_cons_of_mem _ (ih h2)

lemma splitRuns_pieces {p : Char → Bool} {s piece : List Char}
    (h : piece ∈ splitRuns p s) : ∀ c ∈ piece, p c = false := by
  rcases hs : splitByChar p s with _ | ⟨x, xs⟩
  · exact absurd hs (splitByChar_ne_nil _ _)
  · have h2 : piece ∈ x :: collapseMid xs := by
      rw [splitRuns, hs] at h
      exact h
    rcases List.mem_cons.1 h2 with rfl | h3
    · exact splitByChar_pieces (by rw [hs]; exact List.mem_cons_self _ _)
    · exact splitByChar_pieces
        (by rw [hs]; exact List.mem_cons_of_mem _ (collapseMid_subset h3))

lemma collapseMid_cons_ne {x : List Char} {xs : List (List Char)} (hx : x ≠ []) :
    collapseMid (x :: xs) = x :: collapseMid xs := by
  cases xs with
  | nil => rfl
  | cons y ys => simp [collapseMid, hx]

lemma splitRuns_single {p : Char → Bool} {e : List Char}
    (he : ∀ c ∈ e, p c = false) : splitRuns p e = [e] := by
  have h : splitByChar p e = [e] := by
    have h2 := splitByChar_append he []
    rw [List.append_nil] at h2
    simpa [splitByChar] using h2
  rw [splitRuns, h]
  rfl

lemma splitRuns_join {p : Char → Bool} {sep : Char} (hsep : p sep = true) :
    ∀ es : List (List Char), es ≠ [] → (∀ e ∈ es, e ≠ []) →
      (∀ e ∈ es, ∀ c ∈ e, p c = false) →
      splitRuns p (joinWith [sep] es) = es := by
  intro es
  induction es with
  | nil => intro h; exact absurd rfl h
  | cons e rest ih =>
    intro _ hne hfree
    cases rest with
    | nil => exact splitRuns_single (hfree e (List.mem_cons_self _ _))
    | cons e2 rest2 =>
      have hJ : joinWith [sep] (e :: e2 :: rest2) =
          e ++ sep :: joinWith [sep] (e2 :: rest2) := by
        have h0 : joinWith [sep] (e :: e2 :: rest2) =
            e ++ [sep] ++ joinWith [sep] (e2 :: rest2) := rfl
        rw [h0]
        simp
      rw [hJ]
      have hsbc : splitByChar p (e ++ sep :: joinWith [sep] (e2 :: rest2)) =
          e :: splitByChar p (joinWith [sep] (e2 :: rest2)) := by
        rw [splitByChar_append (hfree e (List.mem_cons_self _ _)),
          splitByChar_cons_true hsep]
        simp
      have hIH := ih (by simp) (fun y hy => hne y (List.mem_cons_of_mem _ hy))
        (fun y hy => hfree y (List.mem_cons_of_mem _ hy))
      rcases hsJ : splitByChar p (joinWith [sep] (e2 :: rest2)) with _ | ⟨x, xs⟩
      · exact absurd hsJ (splitByChar_ne_nil _ _)
      · have hIH2 : x :: collapseMid xs = e2 :: rest2 := by
          rw [splitRuns, hsJ] at hIH
          exact hIH
        have hgoal : splitRuns p (e ++ sep :: joinWith [sep] (e2 :: rest2)) =
            e :: collapseMid (x :: xs) := by
          rw [splitRuns, hsbc, hsJ]
        rw [hgoal]
        have hx_ne : x ≠ [] := by
          intro hx
          injection hIH2 with h1 h2
          exact hne e2 (List.mem_cons_of_mem _ (List.mem_cons_self _ _)) (h1 ▸ hx)
        rw [collapseMid_cons_ne hx_ne, hIH2]

/-! ## Dedup lemmas -/

lemma mem_dedupSpec : ∀ {l x}, x ∈ dedupSpec l → x ∈ l := by
  have key : ∀ n, ∀ l : List (List Char), l.length ≤ n →
      ∀ x ∈ dedupSpec l, x ∈ l := by
    intro n
    induction n with
    | zero =>
      intro l hl x hx
      rw [List.length_eq_zero.1 (Nat.le_zero.1 hl)] at hx ⊢
      rw [dedupSpec] at hx
      exact hx
    | succ m ih =>
      intro l hl x hx
      cases l with
      | nil =>
        rw [dedupSpec] at hx
        exact hx
      | cons y r =>
        rw [dedupSpec] at hx
        rcases List.mem_cons.1 hx with rfl | h2
        · exact List.mem_cons_self _ _
        · have hlen : (r.filter (fun z => decide (z ≠ y))).length ≤ m := by
            have := List.length_filter_le (fun z => decide (z ≠ y)) r
            simp only [List.length_cons] at hl
            omega
          have := ih _ hlen x h2
          exact List.mem_cons_of_mem _ (List.mem_of_mem_filter this)
  intro l x hx
  exact key l.length l le_rfl x hx

lemma dedupSpec_nodup : ∀ l : List (List Char), (dedupSpec l).Nodup := by
  have key : ∀ n, ∀ l : List (List Char), l.length ≤ n → (dedupSpec l).Nodup := by
    intro n
    induction n with
    | zero =>
      intro l hl
      rw [List.length_eq_zero.1 (Nat.le_zero.1 hl)]
      rw [dedupSpec]
      exact List.nodup_nil
    | succ m ih =>
      intro l hl
      cases l with
      | nil =>
        rw [dedupSpec]
        exact List.nodup_nil
      | cons y r =>
        rw [dedupSpec]
        have hlen : (r.filter (fun z => decide (z ≠ y))).length ≤ m := by
          have := List.length_filter_le (fun z => decide (z ≠ y)) r
          simp only [List.length_cons] at hl
          omega
        refine List.nodup_cons.2 ⟨?_, ih _ hlen⟩
        intro hy
        have := List.of_mem_filter (mem_dedupSpec hy)
        simp at this
  intro l
  exact key l.length l le_rfl

lemma dedupSpec_eq_self : ∀ {l : List (List Char)}, l.Nodup → dedupSpec l = l := by
  have key : ∀ n, ∀ l : List (List Char), l.length ≤ n → l.Nodup →
      dedupSpec l = l := by
    intro n
    induction n with
    | zero =>
      intro l hl _
      rw [List.length_eq_zero.1 (Nat.le_zero.1 hl)]
      rw [dedupSpec]
    | succ m ih =>
      intro l hl hnodup
      cases l with
      | nil => rw [dedupSpec]
      | cons y r =>
        rw [dedupSpec]
        obtain ⟨hy, hr⟩ := List.nodup_cons.1 hnodup
        have hfilter : r.filter (fun z => decide (z ≠ y)) = r :=
          List.filter_eq_self.2 (fun a ha => by
            simp only [decide_eq_true_eq]
            exact fun hz => hy (hz ▸ ha))
        rw [hfilter]
        have hlen : r.length ≤ m := by
          simp only [List.length_cons] at hl
          omega
        rw [ih r hlen hr]
  intro l h
  exact key l.length l le_rfl h

lemma filterDedup_eq (l : List (List Char)) : ∀ seen,
    filterDedup seen l =
      dedupSpec ((l.map pyStrip).filter
        (fun k => decide (k ≠ []) && decide (k ∉ seen))) := by
  induction l with
  | nil =>
    intro seen
    rw [filterDedup, List.map_nil, List.filter_nil, dedupSpec]
  | cons w rest ih =>
    intro seen
    rw [filterDedup, List.map_cons, List.filter_cons]
    by_cases hcond : pyStrip w ≠ [] ∧ pyStrip w ∉ seen
    · rw [if_pos hcond, if_pos (by simp [hcond.1, hcond.2])]
      rw [dedupSpec, ih (pyStrip w :: seen)]
      congr 1
      rw [List.filter_filter]
      congr 1
      apply List.filter_congr
      intro a _
      by_cases ha1 : a = []
      · simp [ha1]
      · by_cases ha2 : a = pyStrip w
        · simp [ha2, ha1]
        · by_cases ha3 : a ∈ seen <;> simp [ha1, ha2, ha3]
    · rw [if_neg hcond, if_neg (by
        simp only [Bool.and_eq_true, decide_eq_true_eq]
        exact hcond)]
      exact ih seen

lemma parse_keywords_eq (t : List Char) :
    parse_keywords t =
      dedupSpec (((splitRuns isKwSep (pyStrip t)).map pyStrip).filter
        (fun k => decide (k ≠ []))) := by
  rw [parse_keywords]
  by_cases ht : t = []
  · subst ht
    rw [if_pos rfl]
    have h1 : (((splitRuns isKwSep (pyStrip ([] : List Char))).map pyStrip).filter
        (fun k => decide (k ≠ []))) = [] := by decide
    rw [h1, dedupSpec]
  · rw [if_neg ht, filterDedup_eq]
    congr 1
    apply List.filter_congr
    intro a _
    simp

/-! ## Element structure of the normalizer outputs -/

lemma normalize_exts_mem_struct {t e : List Char} (he : e ∈ normalize_exts t) :
    ∃ w, (∀ c ∈ w, isComma c = false) ∧ pyStrip w ≠ [] ∧
      e = pyLower ((pyStrip w).dropWhile (fun c => c == '.')) := by
  rw [normalize_exts] at he
  by_cases ht : t = []
  · rw [if_pos ht] at he
    simp at he
  · rw [if_neg ht] at he
    rw [List.mem_filterMap] at he
    obtain ⟨w, hw, hmap⟩ := he
    by_cases hs : pyStrip w ≠ []
    · rw [if_pos hs] at hmap
      exact ⟨w, fun c hc => splitRuns_pieces hw c hc, hs, (Option.some.inj hmap).symm⟩
    · rw [if_neg hs] at hmap
      cases hmap

lemma normalize_elem_facts {t e : List Char} (he : e ∈ normalize_exts t) :
    pyLower e = e ∧ (∀ c ∈ e, isComma c = false) ∧
      (∀ c, e.head? = some c → (c == '.') = false) := by
  obtain ⟨w, hwfree, hs, hE⟩ := normalize_exts_mem_struct he
  refine ⟨by rw [hE, pyLower_idem], ?_, ?_⟩
  · intro c hc
    rw [hE, pyLower, List.mem_map] at hc
    obtain ⟨c0, hc0, rfl⟩ := hc
    have hc0w : c0 ∈ w :=
      mem_pyStrip (List.Sublist.mem hc0 (List.dropWhile_suffix _).sublist)
    rw [isComma_toLower]
    exact hwfree c0 hc0w
  · intro c hcH
    rw [hE, pyLower, List.head?_map] at hcH
    cases hq : ((pyStrip w).dropWhile (fun c => c == '.')).head? with
    | none =>
      rw [hq] at hcH
      cases hcH
    | some c0 =>
      rw [hq] at hcH
      have hc0 : Char.toLower c0 = c := Option.some.inj hcH
      have hdq : (c0 == '.') = false := by
        rw [List.head?_eq_some_iff] at hq
        obtain ⟨ys, hy⟩ := hq
        exact dropWhile_head_false (p := fun c => c == '.') hy
      rw [← hc0, dot_beq_toLower]
      exact hdq

lemma filterMap_id_of {l : List (List Char)} {f : List Char → Option (List Char)}
    (h : ∀ e ∈ l, f e = some e) : l.filterMap f = l := by
  induction l with
  | nil => rfl
  | cons x xs ih =>
    rw [List.filterMap_cons, h x (List.mem_cons_self _ _),
      ih (fun e he => h e (List.mem_cons_of_mem _ he))]

lemma map_pyStrip_id_of {l : List (List Char)} (h : ∀ e ∈ l, pyStrip e = e) :
    l.map pyStrip = l := by
  induction l with
  | nil => rfl
  | cons x xs ih =>
    rw [List.map_cons, h x (List.mem_cons_self _ _),
      ih (fun e he => h e (List.mem_cons_of_mem _ he))]

lemma joinWith_ne_nil {sep : Char} {x : List Char} {xs : List (List Char)}
    (hx : x ≠ []) : joinWith [sep] (x :: xs) ≠ [] := by
  cases xs with
  | nil => exact hx
  | cons y ys =>
    have h0 : joinWith [sep] (x :: y :: ys) =
        x ++ [sep] ++ joinWith [sep] (y :: ys) := rfl
    rw [h0]
    simp

lemma joinWith_head {sep : Char} {x : List Char} {xs : List (List Char)}
    (hx : x ≠ []) : (joinWith [sep] (x :: xs)).head? = x.head? := by
  cases xs with
  | nil => rfl
  | cons y ys =>
    have h0 : joinWith [sep] (x :: y :: ys) =
        x ++ [sep] ++ joinWith [sep] (y :: ys) := rfl
    rw [h0]
    cases x with
    | nil => exact absurd rfl hx
    | cons c r => simp

lemma joinWith_getLast_mem {sep : Char} :
    ∀ {es : List (List Char)}, es ≠ [] → (∀ e ∈ es, e ≠ []) →
      ∀ c, (joinWith [sep] es).getLast? = some c →
        ∃ e ∈ es, e.getLast? = some c := by
  intro es
  induction es with
  | nil => intro h; exact absurd rfl h
  | cons x xs ih =>
    intro _ hne c hc
    cases xs with
    | nil => exact ⟨x, List.mem_cons_self _ _, hc⟩
    | cons y ys =>
      have h0 : joinWith [sep] (x :: y :: ys) =
          x ++ [sep] ++ joinWith [sep] (y :: ys) := rfl
      rw [h0, List.getLast?_append] at hc
      have hyne : joinWith [sep] (y :: ys) ≠ [] :=
        joinWith_ne_nil (hne y (List.mem_cons_of_mem _ (List.mem_cons_self _ _)))
      have hgl : (joinWith [sep] (y :: ys)).getLast? = some c := by
        cases hgy : (joinWith [sep] (y :: ys)).getLast? with
        | none =>
          exfalso
          exact hyne (List.getLast?_eq_none.1 hgy)
        | some d =>
          rw [hgy] at hc
          exact congrArg some (Option.some.inj hc)
      obtain ⟨e, hel, hegl⟩ := ih (by simp)
        (fun e hel => hne e (List.mem_cons_of_mem _ hel)) c hgl
      exact ⟨e, List.mem_cons_of_mem _ hel, hegl⟩

lemma parse_elem_facts {t e : List Char} (he : e ∈ parse_keywords t) :
    e ≠ [] ∧ pyStrip e = e ∧ ∀ c ∈ e, isKwSep c = false := by
  rw [parse_keywords_eq] at he
  have he2 := mem_dedupSpec he
  rw [List.mem_filter] at he2
  obtain ⟨hmem, hfilter⟩ := he2
  rw [List.mem_map] at hmem
  obtain ⟨piece, hpiece, hpe⟩ := hmem
  refine ⟨by simpa using hfilter, ?_, ?_⟩
  · rw [← hpe, pyStrip_idem]
  · intro c hc
    have hcp : c ∈ piece := mem_pyStrip (hpe ▸ hc)
    exact splitRuns_pieces hpiece c hcp

lemma parse_keywords_nodup (t : List Char) : (parse_keywords t).Nodup := by
  rw [parse_keywords_eq]
  exact dedupSpec_nodup _

lemma normalize_exts_idem {t : List Char}
    (H : ∀ e ∈ normalize_exts t, e ≠ [] ∧ pyStrip e = e) :
    normalize_exts (joinWith [ ',' ] (normalize_exts t)) = normalize_exts t := by
  rcases hout : normalize_exts t with _ | ⟨x, xs⟩
  · rfl
  · have hmem : ∀ e ∈ x :: xs, e ∈ normalize_exts t := fun e hel => hout ▸ hel
    have hne : ∀ e ∈ x :: xs, e ≠ [] := fun e hel => (H e (hmem e hel)).1
    have hstrip : ∀ e ∈ x :: xs, pyStrip e = e := fun e hel => (H e (hmem e hel)).2
    have hfree : ∀ e ∈ x :: xs, ∀ c ∈ e, isComma c = false :=
      fun e hel c hc => (normalize_elem_facts (hmem e hel)).2.1 c hc
    have hJne : joinWith [ ',' ] (x :: xs) ≠ [] :=
      joinWith_ne_nil (hne x (List.mem_cons_self _ _))
    rw [normalize_exts, if_neg hJne]
    have hsplit : splitRuns isComma (joinWith [ ',' ] (x :: xs)) = x :: xs :=
      splitRuns_join (by decide) _ (by simp) hne hfree
    rw [hsplit]
    apply filterMap_id_of
    intro e hel
    have hfacts := normalize_elem_facts (hmem e hel)
    have hse : pyStrip e = e := hstrip e hel
    have hnee : e ≠ [] := hne e hel
    rw [hse, if_pos hnee]
    have hdrop : e.dropWhile (fun c => c == '.') = e := by
      cases e with
      | nil => rfl
      | cons c r =>
        have hc := hfacts.2.2 c rfl
        rw [List.dropWhile_cons, if_neg (by simp [hc])]
    rw [hdrop, hfacts.1]

lemma parse_keywords_idem (t : List Char) :
    parse_keywords (joinWith [ ',' ] (parse_keywords t)) = parse_keywords t := by
  rcases hout : parse_keywords t with _ | ⟨x, xs⟩
  · rfl
  · have hmem : ∀ e ∈ x :: xs, e ∈ parse_keywords t := fun e hel => hout ▸ hel
    have hfacts : ∀ e ∈ x :: xs, e ≠ [] ∧ pyStrip e = e ∧ ∀ c ∈ e, isKwSep c = false :=
      fun e hel => parse_elem_facts (hmem e hel)
    have hne : ∀ e ∈ x :: xs, e ≠ [] := fun e hel => (hfacts e hel).1
    have hxne : x ≠ [] := hne x (List.mem_cons_self _ _)
    have hJne : joinWith [ ',' ] (x :: xs) ≠ [] := joinWith_ne_nil hxne
    rw [parse_keywords, if_neg hJne]
    have hstripJ : pyStrip (joinWith [ ',' ] (x :: xs)) = joinWith [ ',' ] (x :: xs) := by
      apply pyStrip_eq_self
      · intro c hc
        rw [joinWith_head hxne] at hc
        have hsx : pyStrip x = x := (hfacts x (List.mem_cons_self _ _)).2.1
        rw [List.head?_eq_some_iff] at hc
        obtain ⟨ys, hy⟩ := hc
        exact pyStrip_head_false (by rw [hsx]; exact hy)
      · intro c hc
        obtain ⟨e, hel, hegl⟩ := joinWith_getLast_mem (by simp) hne c hc
        have hse : pyStrip e = e := (hfacts e hel).2.1
        exact pyStrip_getLast_false (by rw [hse]; exact hegl)
    rw [hstripJ]
    have hsplit : splitRuns isKwSep (joinWith [ ',' ] (x :: xs)) = x :: xs :=
      splitRuns_join (by decide) _ (by simp) hne (fun e hel => (hfacts e hel).2.2)
    rw [hsplit, filterDedup_eq]
    rw [map_pyStrip_id_of (fun e hel => (hfacts e hel).2.1)]
    have hfe : (x :: xs).filter
        (fun k => decide (k ≠ []) && decide (k ∉ ([] : List (List Char)))) = x :: xs :=
      List.filter_eq_self.2 (fun e hel => by simp [hne e hel])
    rw [hfe]
    exact dedupSpec_eq_self (hout ▸ parse_keywords_nodup t)

/-! ## Transfer lemmas -/

lemma safe_copy_if_free {fs : FSys} {src dst : List Char}
    (h : pathExists fs (joinPath dst (basename src)) = false) :
    safe_copy fs src dst =
      (joinPath dst (basename src),
       (joinPath dst (basename src), (readFS fs src).getD []) :: fs) := by
  simp only [safe_copy]
  rw [if_pos h]

lemma safe_move_if_free {fs : FSys} {src dst : List Char}
    (h : pathExists fs (joinPath dst (basename src)) = false) :
    safe_move fs src dst =
      (joinPath dst (basename src),
       (joinPath dst (basename src), (readFS fs src).getD []) :: removePath fs src) := by
  simp only [safe_move]
  rw [if_pos h]

lemma safe_copy_if_taken {fs : FSys} {src dst : List Char}
    (h : pathExists fs (joinPath dst (basename src)) = true) :
    safe_copy fs src dst =
      (candPath dst (splitextBase (basename src)).1 (splitextBase (basename src)).2
         (Nat.find (exists_free_slot fs dst (splitextBase (basename src)).1
            (splitextBase (basename src)).2)),
       (candPath dst (splitextBase (basename src)).1 (splitextBase (basename src)).2
          (Nat.find (exists_free_slot fs dst (splitextBase (basename src)).1
             (splitextBase (basename src)).2)),
        (readFS fs src).getD []) :: fs) := by
  simp only [safe_copy]
  rw [if_neg (by rw [h]; simp)]

lemma safe_move_if_taken {fs : FSys} {src dst : List Char}
    (h : pathExists fs (joinPath dst (basename src)) = true) :
    safe_move fs src dst =
      (candPath dst (splitextBase (basename src)).1 (splitextBase (basename src)).2
         (Nat.find (exists_free_slot fs dst (splitextBase (basename src)).1
            (splitextBase (basename src)).2)),
       (candPath dst (splitextBase (basename src)).1 (splitextBase (basename src)).2
          (Nat.find (exists_free_slot fs dst (splitextBase (basename src)).1
             (splitextBase (basename src)).2)),
        (readFS fs src).getD []) :: removePath fs src) := by
  simp only [safe_move]
  rw [if_neg (by rw [h]; simp)]

lemma safe_move_fst (fs : FSys) (src dst : List Char) :
    (safe_move fs src dst).1 = (safe_copy fs src dst).1 := by
  rcases h : pathExists fs (joinPath dst (basename src)) with _ | _
  · rw [safe_copy_if_free h, safe_move_if_free h]
  · rw [safe_copy_if_taken h, safe_move_if_taken h]

lemma safe_copy_fresh (fs : FSys) (src dst : List Char) :
    pathExists fs (safe_copy fs src dst).1 = false := by
  rcases h : pathExists fs (joinPath dst (basename src)) with _ | _
  · rw [safe_copy_if_free h]
    exact h
  · rw [safe_copy_if_taken h]
    exact (Nat.find_spec (exists_free_slot fs dst (splitextBase (basename src)).1
      (splitextBase (basename src)).2)).2

lemma safe_move_fresh (fs : FSys) (src dst : List Char) :
    pathExists fs (safe_move fs src dst).1 = false := by
  rw [safe_move_fst]
  exact safe_copy_fresh fs src dst

lemma safe_copy_snd (fs : FSys) (src dst : List Char) :
    (safe_copy fs src dst).2 =
      ((safe_copy fs src dst).1, (readFS fs src).getD []) :: fs := by
  rcases h : pathExists fs (joinPath dst (basename src)) with _ | _
  · rw [safe_copy_if_free h]
  · rw [safe_copy_if_taken h]

lemma safe_move_snd (fs : FSys) (src dst : List Char) :
    (safe_move fs src dst).2 =
      ((safe_move fs src dst).1, (readFS fs src).getD []) :: removePath fs src := by
  rcases h : pathExists fs (joinPath dst (basename src)) with _ | _
  · rw [safe_move_if_free h]
  · rw [safe_move_if_taken h]

lemma basename_no_slash {p : List Char} : ∀ c ∈ basename p, (c == '/') = false := by
  intro c hc
  rw [basename, List.mem_reverse] at hc
  have := List.mem_takeWhile_imp hc
  simpa using this

lemma isAbs_false_of_no_slash {x : List Char}
    (h : ∀ c ∈ x, (c == '/') = false) : isAbs x = false := by
  cases x with
  | nil => rfl
  | cons c r =>
    rw [isAbs_cons]
    have := h c (List.mem_cons_self _ _)
    simpa using this

lemma splitextBase_append (s : List Char) :
    (splitextBase s).1 ++ (splitextBase s).2 = s := by
  cases h : lastDotIdx s with
  | none => simp [splitextBase, h]
  | some d =>
    by_cases hall : (s.take d).all (fun c => c == '.')
    · simp [splitextBase, h, hall]
    · simp [splitextBase, h, hall, List.take_append_drop]

lemma splitextBase_fst_subset {s : List Char} {c : Char}
    (hc : c ∈ (splitextBase s).1) : c ∈ s := by
  cases h : lastDotIdx s with
  | none =>
    simp [splitextBase, h] at hc
    exact hc
  | some d =>
    by_cases hall : (s.take d).all (fun c => c == '.')
    · simp [splitextBase, h, hall] at hc
      exact hc
    · simp [splitextBase, h, hall] at hc
      exact (List.take_sublist d s).mem hc

lemma natChars_ne_nil (n : Nat) : natChars n ≠ [] := by
  rw [natChars]
  by_cases h : n = 0
  · simp [h]
  · rw [if_neg h]
    cases hn : n with
    | zero => exact absurd hn h
    | succ m =>
      rw [natCharsAux, if_neg (hn ▸ h)]
      simp

lemma natChars_no_slash {n : Nat} : (('/' : Char) ∈ natChars n) → False := by
  intro h
  have := natChars_digit_range h
  revert this
  decide

lemma candBody_no_slash {s : List Char} {i : Nat} {c : Char}
    (hc : c ∈ (splitextBase (basename s)).1 ++
      '(' :: (natChars i ++ ')' :: (splitextBase (basename s)).2)) :
    (c == '/') = false := by
  have hbase : ∀ d ∈ basename s, (d == '/') = false := basename_no_slash
  rcases List.mem_append.1 hc with h | h
  · exact hbase c (by
      have := splitextBase_fst_subset h
      exact this)
  · rcases List.mem_cons.1 h with rfl | h2
    · decide
    · rcases List.mem_append.1 h2 with h3 | h3
      · simp only [beq_eq_false_iff_ne, ne_eq]
        intro hcc
        exact natChars_no_slash (hcc ▸ h3)
      · rcases List.mem_cons.1 h3 with rfl | h4
        · decide
        · apply hbase
          have hsnd : c ∈ basename s := by
            have happ := splitextBase_append (basename s)
            have : c ∈ (splitextBase (basename s)).1 ++ (splitextBase (basename s)).2 :=
              List.mem_append.2 (Or.inr h4)
            rwa [happ] at this
          exact hsnd

lemma joinPath_length_of_not_abs {dst x : List Char} (hx : isAbs x = false) :
    (joinPath dst x).length =
      (if dst = [] then 0
       else if dst.getLast? = some '/' then dst.length
       else dst.length + 1) + x.length := by
  rw [joinPath, if_neg (by simp [hx])]
  by_cases hd : dst = []
  · simp [hd]
  · rw [if_neg hd, if_neg hd]
    by_cases hl : dst.getLast? = some '/'
    · rw [if_pos hl, if_pos hl]
      simp
    · rw [if_neg hl, if_neg hl]
      simp
      omega

lemma target_ne_cand (src dst : List Char) (i : Nat) :
    joinPath dst (basename src) ≠
      candPath dst (splitextBase (basename src)).1 (splitextBase (basename src)).2 i := by
  intro h
  have hB : isAbs (basename src) = false :=
    isAbs_false_of_no_slash basename_no_slash
  have hbody : isAbs ((splitextBase (basename src)).1 ++
      '(' :: (natChars i ++ ')' :: (splitextBase (basename src)).2)) = false :=
    isAbs_false_of_no_slash (fun c hc => candBody_no_slash hc)
  have hlen := congrArg List.length h
  rw [candPath, joinPath_length_of_not_abs hB, joinPath_length_of_not_abs hbody] at hlen
  have hBlen : (basename src).length =
      (splitextBase (basename src)).1.length + (splitextBase (basename src)).2.length := by
    have := congrArg List.length (splitextBase_append (basename src))
    simp at this
    omega
  have hnc : 1 ≤ (natChars i).length := by
    have := natChars_ne_nil i
    cases hn : natChars i with
    | nil => exact absurd hn this
    | cons a b => simp
  simp only [List.length_append, List.length_cons] at hlen
  omega

lemma pathExists_cons (q : List Char) (c : List Char) (fs : FSys) (p : List Char) :
    pathExists ((q, c) :: fs) p = ((q == p) || pathExists fs p) := rfl

lemma readFS_cons_ne {fs : FSys} {q p : List Char} {c : List Char} (h : p ≠ q) :
    readFS ((q, c) :: fs) p = readFS fs p := by
  rw [readFS, List.lookup_cons]
  have : (p == q) = false := by simp [h]
  rw [this]
  rfl

lemma readFS_cons_self (fs : FSys) (q : List Char) (c : List Char) :
    readFS ((q, c) :: fs) q = some c := by
  rw [readFS, List.lookup_cons]
  simp

lemma pathExists_of_readFS {fs : FSys} {p : List Char} {c : List Char}
    (h : readFS fs p = some c) : pathExists fs p = true := by
  induction fs with
  | nil => cases h
  | cons e rest ih =>
    rw [readFS, List.lookup_cons] at h
    rw [pathExists, List.any_cons]
    by_cases hpe : p = e.1
    · simp [hpe]
    · have hb : (p == e.1) = false := by simp [hpe]
      rw [hb] at h
      have := ih h
      rw [pathExists] at this
      simp [this]

lemma readFS_removePath_ne {fs : FSys} {p q : List Char} (h : q ≠ p) :
    readFS (removePath fs p) q = readFS fs q := by
  induction fs with
  | nil => rfl
  | cons e rest ih =>
    rw [removePath, List.filter_cons]
    by_cases he : e.1 = p
    · rw [if_neg (by simp [he])]
      have : readFS (e :: rest) q = readFS rest q := by
        rcases e with ⟨k, v⟩
        exact readFS_cons_ne (fun hq => h (hq.trans he))
      rw [this, ← ih]
      rfl
    · rw [if_pos (by simp [he])]
      rcases e with ⟨k, v⟩
      by_cases hqk : q = k
      · subst hqk
        rw [readFS_cons_self, readFS_cons_self]
      · rw [readFS_cons_ne hqk, readFS_cons_ne hqk, ← ih]
        rfl

lemma pathExists_removePath_self (fs : FSys) (p : List Char) :
    pathExists (removePath fs p) p = false := by
  rw [pathExists, List.any_eq_false]
  intro e he
  have := List.of_mem_filter he
  simp only [Bool.not_eq_true'] at this
  simp [this]

/-! ## Claim theorems -/

/-- C1: `match_routes_for_name` returns exactly the (pattern, target)
pairs of the rules whose pattern, split on `|` with each piece trimmed
and lowercased, has at least one non-empty token that is a substring of
the lowercased file name; rule order is preserved, each rule contributes
at most one pair, and a rule with no non-empty tokens never matches. -/
theorem c1_match_routes (name : List Char) (routes : List MoveRule) :
    match_routes_for_name name routes =
      (routes.filter (fun (r : MoveRule) => decide (∃ x ∈ splitOnChar '|' r.pattern,
          pyLower (pyStrip x) ≠ [] ∧ pyLower (pyStrip x) <:+: pyLower name))).map
        (fun r => (r.pattern, r.target)) := by
  induction routes with
  | nil => rfl
  | cons r rest ih =>
    rw [match_routes_for_name, List.filter_cons, ih]
    by_cases hq : ∃ x ∈ splitOnChar '|' r.pattern,
        pyLower (pyStrip x) ≠ [] ∧ pyLower (pyStrip x) <:+: pyLower name
    · rw [if_pos ((rule_hits_iff _ _).2 hq)]
      simp [hq]
    · rw [if_neg (fun hr => hq ((rule_hits_iff _ _).1 hr))]
      simp [hq]

/-- C2: under the auto-first policy the destination the orchestrator picks for a
file is the base directory when no rule matches and otherwise the target
of the first match (so also for exactly one match), resolved as-is when
absolute and joined under the base directory otherwise. -/
theorem c2_dest_decision (base : List Char) (routes : List MoveRule)
    (f : List Char) :
    (match_routes_for_name (basename f) routes = [] →
      destFor base routes f = if isAbs base then base else joinPath base base) ∧
    (∀ p t rest, match_routes_for_name (basename f) routes = (p, t) :: rest →
      destFor base routes f = if isAbs t then t else joinPath base t) := by
  constructor
  · intro h
    rw [destFor, h]
    rfl
  · intro p t rest h
    rw [destFor, h]
    cases rest with
    | nil => rfl
    | cons m r2 => rfl

/-- Witness for C2: the no-match and first-match cases at concrete
inputs. -/
theorem c2_dest_decision_witness :
    destFor (r"/dst").data [] (r"/src/数学试卷.pdf").data =
      (if isAbs (r"/dst").data then (r"/dst").data
       else joinPath (r"/dst").data (r"/dst").data) ∧
    destFor (r"/dst").data [⟨(r"试卷|卷子").data, (r"试卷").data⟩]
        (r"/src/数学试卷.pdf").data =
      (if isAbs (r"试卷").data then (r"试卷").data
       else joinPath (r"/dst").data (r"试卷").data) :=
  ⟨(c2_dest_decision (r"/dst").data [] (r"/src/数学试卷.pdf").data).1 (by decide),
   (c2_dest_decision (r"/dst").data [⟨(r"试卷|卷子").data, (r"试卷").data⟩]
      (r"/src/数学试卷.pdf").data).2
     (r"试卷|卷子").data (r"试卷").data [] (by decide)⟩

/-- C3: the transfer returns `destinationDir/baseName(source)` when that
path is unused, and otherwise `destinationDir/name(i)ext` for the
smallest `i ≥ 1` whose candidate is unused, where `(name, ext)` is the
last-extension split of the base name; copying the same source twice
into a fresh destination yields the plain name and then the `(1)`
variant; the returned path never names a pre-existing file. -/
theorem c3_collision_naming (fs : FSys) (src dst : List Char) :
    (pathExists fs (joinPath dst (basename src)) = false →
      (safe_copy fs src dst).1 = joinPath dst (basename src) ∧
      (safe_move fs src dst).1 = joinPath dst (basename src)) ∧
    (pathExists fs (joinPath dst (basename src)) = true →
      ∃ i, 1 ≤ i ∧
        (safe_copy fs src dst).1 = candPath dst (splitextBase (basename src)).1
          (splitextBase (basename src)).2 i ∧
        (safe_move fs src dst).1 = (safe_copy fs src dst).1 ∧
        pathExists fs (candPath dst (splitextBase (basename src)).1
          (splitextBase (basename src)).2 i) = false ∧
        (∀ j, 1 ≤ j → j < i →
          pathExists fs (candPath dst (splitextBase (basename src)).1
            (splitextBase (basename src)).2 j) = true)) ∧
    pathExists fs (safe_copy fs src dst).1 = false ∧
    pathExists fs (safe_move fs src dst).1 = false ∧
    (pathExists fs (joinPath dst (basename src)) = false →
      pathExists fs (candPath dst (splitextBase (basename src)).1
        (splitextBase (basename src)).2 1) = false →
      (safe_copy (safe_copy fs src dst).2 src dst).1 =
        candPath dst (splitextBase (basename src)).1
          (splitextBase (basename src)).2 1) := by
  refine ⟨?_, ?_, safe_copy_fresh fs src dst, safe_move_fresh fs src dst, ?_⟩
  · intro h
    rw [safe_copy_if_free h, safe_move_if_free h]
    exact ⟨rfl, rfl⟩
  · intro h
    refine ⟨Nat.find (exists_free_slot fs dst (splitextBase (basename src)).1
        (splitextBase (basename src)).2),
      (Nat.find_spec (exists_free_slot fs dst (splitextBase (basename src)).1
        (splitextBase (basename src)).2)).1, ?_, safe_move_fst fs src dst,
      (Nat.find_spec (exists_free_slot fs dst (splitextBase (basename src)).1
        (splitextBase (basename src)).2)).2, ?_⟩
    · rw [safe_copy_if_taken h]
    · intro j h1 hj
      have hmin := Nat.find_min (exists_free_slot fs dst (splitextBase (basename src)).1
        (splitextBase (basename src)).2) hj
      rcases hpe : pathExists fs (candPath dst (splitextBase (basename src)).1
          (splitextBase (basename src)).2 j) with _ | _
      · exact absurd ⟨h1, hpe⟩ hmin
      · rfl
  · intro h0 h1
    have hsnd : (safe_copy fs src dst).2 =
        (joinPath dst (basename src), (readFS fs src).getD []) :: fs := by
      rw [safe_copy_if_free h0]
    rw [hsnd]
    have hT2 : pathExists ((joinPath dst (basename src), (readFS fs src).getD []) :: fs)
        (joinPath dst (basename src)) = true := by
      rw [pathExists_cons]
      simp
    rw [safe_copy_if_taken hT2]
    have hfind : Nat.find (exists_free_slot
        ((joinPath dst (basename src), (readFS fs src).getD []) :: fs) dst
        (splitextBase (basename src)).1 (splitextBase (basename src)).2) = 1 := by
      rw [Nat.find_eq_iff]
      refine ⟨⟨le_rfl, ?_⟩, ?_⟩
      · rw [pathExists_cons]
        have hne : (joinPath dst (basename src) ==
            candPath dst (splitextBase (basename src)).1
              (splitextBase (basename src)).2 1) = false := by
          simp only [beq_eq_false_iff_ne, ne_eq]
          exact target_ne_cand src dst 1
        rw [hne, h1]
        rfl
      · rintro n hn ⟨hn1, -⟩
        omega
    rw [hfind]

/-- Witness for C3: a fresh destination gives the plain target, and the
second copy of the same source lands on the `(1)` candidate. -/
theorem c3_collision_naming_witness :
    (safe_copy ([] : FSys) (r"/s/数学试卷.pdf").data (r"/d").data).1 =
      joinPath (r"/d").data (basename (r"/s/数学试卷.pdf").data) ∧
    (safe_copy (safe_copy ([] : FSys) (r"/s/数学试卷.pdf").data (r"/d").data).2
        (r"/s/数学试卷.pdf").data (r"/d").data).1 =
      candPath (r"/d").data (splitextBase (basename (r"/s/数学试卷.pdf").data)).1
        (splitextBase (basename (r"/s/数学试卷.pdf").data)).2 1 :=
  ⟨((c3_collision_naming [] (r"/s/数学试卷.pdf").data (r"/d").data).1 (by decide)).1,
   (c3_collision_naming [] (r"/s/数学试卷.pdf").data (r"/d").data).2.2.2.2
     (by decide) (by decide)⟩

/-- C4: after a successful copy the source is intact with its content,
after a move the source path is gone, and in both modes every file that
existed before keeps its exact content (the fresh return path never
overwrites anything). -/
theorem c4_transfer_frame (fs : FSys) (src dst c : List Char)
    (hsrc : readFS fs src = some c) :
    (readFS (safe_copy fs src dst).2 src = some c ∧
     readFS (safe_copy fs src dst).2 (safe_copy fs src dst).1 = some c ∧
     (∀ q, pathExists fs q = true →
        readFS (safe_copy fs src dst).2 q = readFS fs q)) ∧
    (pathExists (safe_move fs src dst).2 src = false ∧
     readFS (safe_move fs src dst).2 (safe_move fs src dst).1 = some c ∧
     (∀ q, pathExists fs q = true → q ≠ src →
        readFS (safe_move fs src dst).2 q = readFS fs q)) := by
  have hsrcEx : pathExists fs src = true := pathExists_of_readFS hsrc
  have hfreshC := safe_copy_fresh fs src dst
  have hsndC := safe_copy_snd fs src dst
  have hnewC : (safe_copy fs src dst).1 ≠ src := by
    intro he
    rw [he, hsrcEx] at hfreshC
    cases hfreshC
  have hfreshM := safe_move_fresh fs src dst
  have hsndM := safe_move_snd fs src dst
  have hnewM : (safe_move fs src dst).1 ≠ src := by
    intro he
    rw [he, hsrcEx] at hfreshM
    cases hfreshM
  constructor
  · refine ⟨?_, ?_, ?_⟩
    · rw [hsndC, readFS_cons_ne (fun hq => hnewC hq.symm), hsrc]
    · rw [hsndC, readFS_cons_self, hsrc]
      rfl
    · intro q hq
      have hqne : q ≠ (safe_copy fs src dst).1 := by
        intro he
        rw [← he] at hfreshC
        rw [hfreshC] at hq
        cases hq
      rw [hsndC, readFS_cons_ne hqne]
  · refine ⟨?_, ?_, ?_⟩
    · rw [hsndM, pathExists_cons]
      have h1 : ((safe_move fs src dst).1 == src) = false := by
        simp [hnewM]
      rw [h1, pathExists_removePath_self]
      rfl
    · rw [hsndM, readFS_cons_self, hsrc]
      rfl
    · intro q hq hqsrc
      have hqne : q ≠ (safe_move fs src dst).1 := by
        intro he
        rw [← he] at hfreshM
        rw [hfreshM] at hq
        cases hq
      rw [hsndM, readFS_cons_ne hqne, readFS_removePath_ne hqsrc]

/-- Witness for C4: a one-file file system. -/
theorem c4_transfer_frame_witness :
    readFS (safe_copy [((r"/s/a.txt").data, (r"abc").data)]
        (r"/s/a.txt").data (r"/d").data).2 (r"/s/a.txt").data =
      some (r"abc").data ∧
    pathExists (safe_move [((r"/s/a.txt").data, (r"abc").data)]
        (r"/s/a.txt").data (r"/d").data).2 (r"/s/a.txt").data = false :=
  ⟨(c4_transfer_frame [((r"/s/a.txt").data, (r"abc").data)]
      (r"/s/a.txt").data (r"/d").data (r"abc").data (by decide)).1.1,
   (c4_transfer_frame [((r"/s/a.txt").data, (r"abc").data)]
      (r"/s/a.txt").data (r"/d").data (r"abc").data (by decide)).2.1⟩

/-- C10: under the precondition that the plain target or some indexed
candidate is unused, both transfers are total and return an unused path;
and the sequential scan is unbounded: for every `n` some directory state
drives the search to index `n + 1`. -/
theorem c10_search_termination :
    (∀ (fs : FSys) (src dst : List Char),
      (pathExists fs (joinPath dst (basename src)) = false ∨
       ∃ i, 1 ≤ i ∧ pathExists fs (candPath dst (splitextBase (basename src)).1
         (splitextBase (basename src)).2 i) = false) →
      (∃ p fs2, safe_copy fs src dst = (p, fs2) ∧ pathExists fs p = false) ∧
      (∃ p fs2, safe_move fs src dst = (p, fs2) ∧ pathExists fs p = false)) ∧
    (∀ (src dst : List Char) (n : Nat), ∃ fs : FSys,
      (safe_copy fs src dst).1 = candPath dst (splitextBase (basename src)).1
        (splitextBase (basename src)).2 (n + 1)) := by
  constructor
  · intro fs src dst _
    exact ⟨⟨(safe_copy fs src dst).1, (safe_copy fs src dst).2, rfl,
        safe_copy_fresh fs src dst⟩,
      ⟨(safe_move fs src dst).1, (safe_move fs src dst).2, rfl,
        safe_move_fresh fs src dst⟩⟩
  · intro src dst n
    refine ⟨(joinPath dst (basename src), []) ::
      (List.range n).map (fun j => (candPath dst (splitextBase (basename src)).1
        (splitextBase (basename src)).2 (j + 1), [])), ?_⟩
    have hT : pathExists ((joinPath dst (basename src), ([] : List Char)) ::
        (List.range n).map (fun j => (candPath dst (splitextBase (basename src)).1
          (splitextBase (basename src)).2 (j + 1), [])))
        (joinPath dst (basename src)) = true := by
      rw [pathExists_cons]
      simp
    rw [safe_copy_if_taken hT]
    have hfind : Nat.find (exists_free_slot
        ((joinPath dst (basename src), ([] : List Char)) ::
          (List.range n).map (fun j => (candPath dst (splitextBase (basename src)).1
            (splitextBase (basename src)).2 (j + 1), []))) dst
        (splitextBase (basename src)).1 (splitextBase (basename src)).2) = n + 1 := by
      rw [Nat.find_eq_iff]
      constructor
      · refine ⟨by omega, ?_⟩
        rw [pathExists_cons]
        have h1 : (joinPath dst (basename src) ==
            candPath dst (splitextBase (basename src)).1
              (splitextBase (basename src)).2 (n + 1)) = false := by
          simp only [beq_eq_false_iff_ne, ne_eq]
          exact target_ne_cand src dst (n + 1)
        rw [h1]
        simp only [Bool.false_or]
        rw [pathExists, List.any_eq_false]
        intro e he
        rw [List.mem_map] at he
        obtain ⟨j, hj, rfl⟩ := he
        rw [List.mem_range] at hj
        simp only [beq_iff_eq]
        intro hc
        have := candPath_inj hc
        omega
      · rintro m hm ⟨hm1, hfree⟩
        have hmone : m - 1 + 1 = m := by omega
        have hmem : pathExists ((joinPath dst (basename src), ([] : List Char)) ::
            (List.range n).map (fun j => (candPath dst (splitextBase (basename src)).1
              (splitextBase (basename src)).2 (j + 1), [])))
            (candPath dst (splitextBase (basename src)).1
              (splitextBase (basename src)).2 m) = true := by
          rw [pathExists, List.any_eq_true]
          refine ⟨(candPath dst (splitextBase (basename src)).1
            (splitextBase (basename src)).2 m, []), ?_, by simp⟩
          refine List.mem_cons_of_mem _ (List.mem_map.2 ⟨m - 1,
            List.mem_range.2 (by omega), ?_⟩)
          rw [hmone]
        rw [hfree] at hmem
        cases hmem
    rw [hfind]

/-- Witness for C10: totality applied at an empty file system. -/
theorem c10_search_termination_witness :
    (∃ p fs2, safe_copy ([] : FSys) (r"/s/a.pdf").data (r"/d").data = (p, fs2) ∧
      pathExists ([] : FSys) p = false) ∧
    (∃ p fs2, safe_move ([] : FSys) (r"/s/a.pdf").data (r"/d").data = (p, fs2) ∧
      pathExists ([] : FSys) p = false) :=
  c10_search_termination.1 [] (r"/s/a.pdf").data (r"/d").data (Or.inl (by decide))

/-- C6: `file_matches` holds iff the extension list is empty or some
extension matches as a lowercased `.ext` suffix, and the keyword list is
empty or some keyword occurs as a case-insensitive substring; with no
keywords and extension filter `["pdf"]` exactly the `.pdf` files match. -/
theorem c6_file_matches :
    (∀ (name : List Char) (keywords exts : List (List Char)),
      file_matches name keywords exts = true ↔
        ((exts = [] ∨ ∃ e ∈ exts, ('.' :: e) <:+ pyLower name) ∧
         (keywords = [] ∨ ∃ k ∈ keywords, pyLower k <:+: pyLower name))) ∧
    (∀ name : List Char,
      file_matches name [] [(r"pdf").data] = true ↔
        ('.' :: (r"pdf").data) <:+ pyLower name) := by
  have main : ∀ (name : List Char) (keywords exts : List (List Char)),
      file_matches name keywords exts = true ↔
        ((exts = [] ∨ ∃ e ∈ exts, ('.' :: e) <:+ pyLower name) ∧
         (keywords = [] ∨ ∃ k ∈ keywords, pyLower k <:+: pyLower name)) := by
    intro name keywords exts
    rw [file_matches]
    by_cases hs : exts.any (fun e => List.isSuffixOf ('.' :: e) (pyLower name)) = true
    · have hsP : ∃ e ∈ exts, ('.' :: e) <:+ pyLower name := by
        simpa [List.any_eq_true, List.isSuffixOf_iff_suffix] using hs
      rw [if_neg (by simp [hs])]
      by_cases hk : keywords = []
      · simp [hk, hsP]
      · simp only [if_neg hk, List.any_eq_true, containsSub_iff]
        constructor
        · intro ⟨k, hkm, hki⟩
          exact ⟨Or.inr hsP, Or.inr ⟨k, hkm, hki⟩⟩
        · rintro ⟨-, h | h⟩
          · exact absurd h hk
          · exact h
    · have hsP : ¬ ∃ e ∈ exts, ('.' :: e) <:+ pyLower name := by
        rintro ⟨e, he2, hsuf⟩
        exact hs (List.any_eq_true.2 ⟨e, he2, List.isSuffixOf_iff_suffix.2 hsuf⟩)
      by_cases he : exts = []
      · subst he
        rw [if_neg (by simp)]
        by_cases hk : keywords = []
        · simp [hk]
        · rw [if_neg hk]
          simp only [List.any_eq_true, containsSub_iff]
          constructor
          · intro ⟨k, hkm, hki⟩
            exact ⟨by simp, Or.inr ⟨k, hkm, hki⟩⟩
          · rintro ⟨-, h | h⟩
            · exact absurd h hk
            · exact h
      · have hcond : (decide ¬exts = [] &&
            !exts.any (fun e => List.isSuffixOf ('.' :: e) (pyLower name))) = true := by
          simp only [Bool.and_eq_true, decide_eq_true_eq, Bool.not_eq_true']
          exact ⟨he, Bool.not_eq_true _ ▸ hs⟩
        rw [if_pos hcond]
        simp only [Bool.false_eq_true, false_iff]
        rintro ⟨h | h, -⟩
        · exact he h
        · exact hsP h
  refine ⟨main, fun name => ?_⟩
  rw [main name [] [(r"pdf").data]]
  simp

/-- C5 counterexample: the per-file `os.makedirs(dest)` runs OUTSIDE the
`try` block of the processing loop, so an I/O error raised while
preparing the copy of the first file aborts the whole batch: the second file
is never processed and no success/failure counts are produced. -/
theorem c5_counterexample :
    execute_move_loop (r"/b").data (mkFailOn (r"/b/d1").data) trOk
        [((r"/s/a.txt").data, (r"/b/d1").data), ((r"/s/b.txt").data, (r"/b/d2").data)] =
      Except.error (r"makedirs-error").data ∧
    ∀ out : Nat × Nat × List BatchLog,
      execute_move_loop (r"/b").data (mkFailOn (r"/b/d1").data) trOk
        [((r"/s/a.txt").data, (r"/b/d1").data), ((r"/s/b.txt").data, (r"/b/d2").data)] ≠
        Except.ok out := by
  constructor
  · rfl
  · intro out h
    rw [show execute_move_loop (r"/b").data (mkFailOn (r"/b/d1").data) trOk
        [((r"/s/a.txt").data, (r"/b/d1").data), ((r"/s/b.txt").data, (r"/b/d2").data)] =
        Except.error (r"makedirs-error").data from rfl] at h
    cases h

/-- C5 (amended): when the unguarded per-file `os.makedirs` succeeds, an
error raised inside the guarded copy/move call is caught for that file
alone and recorded with the base name of the file and the cause; every
remaining file is still processed, and the outcome reports the counts of
succeeded and failed files. -/
theorem c5_error_isolation_amended (base : List Char)
    (mk : List Char → Except (List Char) Unit)
    (tr : List Char → List Char → Except (List Char) (List Char))
    (files : List (List Char × List Char))
    (hmk : ∀ d, mk d = Except.ok ()) :
    ∃ m fl lg, execute_move_loop base mk tr files = Except.ok (m, fl, lg) ∧
      m + fl = files.length ∧ lg.length = files.length ∧
      m = (files.filter (fun ft =>
        (tr ft.1 (if isAbs ft.2 then ft.2 else joinPath base ft.2)).isOk)).length ∧
      (∀ i : Nat, lg.get? i = (files.get? i).map (fun ft =>
        match tr ft.1 (if isAbs ft.2 then ft.2 else joinPath base ft.2) with
        | Except.ok p => BatchLog.ok (basename ft.1) p
        | Except.error e => BatchLog.fail (basename ft.1) e)) := by
  induction files with
  | nil => exact ⟨0, 0, [], rfl, rfl, rfl, rfl, fun i => rfl⟩
  | cons ft rest ih =>
    obtain ⟨m, fl, lg, hloop, hsum, hlen, hm, hget⟩ := ih
    rcases ft with ⟨f, target⟩
    cases htr : tr f (if isAbs target then target else joinPath base target) with
    | ok p =>
      refine ⟨m + 1, fl, BatchLog.ok (basename f) p :: lg, ?_,
        by simp only [List.length_cons]; omega, ?_, ?_, ?_⟩
      · simp only [execute_move_loop]
        rw [hmk, htr, hloop]
      · simp [hlen]
      · rw [List.filter_cons]
        have : (tr (f, target).1
            (if isAbs (f, target).2 then (f, target).2
             else joinPath base (f, target).2)).isOk = true := by
          simp only
          rw [htr]
          rfl
        rw [if_pos this, List.length_cons, hm]
      · intro i
        cases i with
        | zero =>
          simp [List.get?, htr]
        | succ k =>
          simp only [List.get?]
          exact hget k
    | error e =>
      refine ⟨m, fl + 1, BatchLog.fail (basename f) e :: lg, ?_,
        by simp only [List.length_cons]; omega, ?_, ?_, ?_⟩
      · simp only [execute_move_loop]
        rw [hmk, htr, hloop]
      · simp [hlen]
      · rw [List.filter_cons]
        have : (tr (f, target).1
            (if isAbs (f, target).2 then (f, target).2
             else joinPath base (f, target).2)).isOk = false := by
          simp only
          rw [htr]
          rfl
        rw [if_neg (by simp [this]), hm]
      · intro i
        cases i with
        | zero =>
          simp [List.get?, htr]
        | succ k =>
          simp only [List.get?]
          exact hget k

/-- Witness for C5: a two-file batch whose first transfer raises is
still fully processed with one success and one failure. -/
theorem c5_error_isolation_amended_witness :
    ∃ m fl lg, execute_move_loop (r"/b").data (fun _ => Except.ok ())
        (trFailOn (r"/s/a.txt").data)
        [((r"/s/a.txt").data, (r"/b/d1").data), ((r"/s/b.txt").data, (r"/b/d2").data)] =
        Except.ok (m, fl, lg) ∧
      m + fl = ([((r"/s/a.txt").data, (r"/b/d1").data),
          ((r"/s/b.txt").data, (r"/b/d2").data)] :
            List (List Char × List Char)).length ∧
      lg.length = ([((r"/s/a.txt").data, (r"/b/d1").data),
          ((r"/s/b.txt").data, (r"/b/d2").data)] :
            List (List Char × List Char)).length ∧
      m = (([((r"/s/a.txt").data, (r"/b/d1").data),
          ((r"/s/b.txt").data, (r"/b/d2").data)] :
            List (List Char × List Char)).filter (fun ft =>
        (trFailOn (r"/s/a.txt").data ft.1
          (if isAbs ft.2 then ft.2 else joinPath (r"/b").data ft.2)).isOk)).length ∧
      (∀ i : Nat, lg.get? i = (([((r"/s/a.txt").data, (r"/b/d1").data),
          ((r"/s/b.txt").data, (r"/b/d2").data)] :
            List (List Char × List Char)).get? i).map (fun ft =>
        match trFailOn (r"/s/a.txt").data ft.1
            (if isAbs ft.2 then ft.2 else joinPath (r"/b").data ft.2) with
        | Except.ok p => BatchLog.ok (basename ft.1) p
        | Except.error e => BatchLog.fail (basename ft.1) e)) :=
  c5_error_isolation_amended (r"/b").data (fun _ => Except.ok ())
    (trFailOn (r"/s/a.txt").data)
    [((r"/s/a.txt").data, (r"/b/d1").data), ((r"/s/b.txt").data, (r"/b/d2").data)]
    (fun _ => rfl)

/-- C7 counterexample: when the stored `routes` list has no well-formed
entry at all, `load_config` keeps the built-in default routes instead of
the (empty) list of well-formed entries, contrary to the claim. -/
theorem c7_counterexample :
    (load_config (some (Json.obj
        [((r"routes").data, Json.arr [Json.num 42])]))).routes =
      default_config.routes ∧
    [Json.num 42].filterMap toRule = ([] : List MoveRule) ∧
    default_config.routes ≠ [] := by
  refine ⟨rfl, rfl, ?_⟩
  decide

/-- C7 (amended): loading never raises; a missing/unreadable/corrupt
file yields the built-in defaults; a legacy dict-shaped `routes` is
converted entry-wise to the list form; a list-shaped `routes` is
filtered to its well-formed entries, which are adopted in order when at
least one survives, while a list with no well-formed entries leaves the
default routes in place. -/
theorem c7_load_config_amended :
    (load_config none = default_config) ∧
    (∀ (data : List (List Char × Json)) (l : List Json),
      jget data (r"routes").data = some (Json.arr l) →
      ((l.filterMap toRule ≠ [] →
        (load_config (some (Json.obj data))).routes = l.filterMap toRule) ∧
       (l.filterMap toRule = [] →
        (load_config (some (Json.obj data))).routes = default_config.routes))) ∧
    (∀ (data kvs : List (List Char × Json)),
      jget data (r"routes").data = some (Json.obj kvs) →
      (load_config (some (Json.obj data))).routes =
        kvs.map (fun e => MoveRule.mk e.1 (pyStr e.2))) ∧
    default_config.routes = [⟨(r"试卷|卷子").data, (r"试卷").data⟩,
      ⟨(r"练习|作业").data, (r"练习").data⟩] ∧
    default_config.exts = Json.arr [Json.str (r"pdf").data, Json.str (r"doc").data,
      Json.str (r"docx").data, Json.str (r"txt").data] ∧
    default_config.recursive = Json.bool true ∧
    default_config.copy_mode = Json.bool false := by
  refine ⟨rfl, ?_, ?_, rfl, rfl, rfl, rfl⟩
  · intro data l hroutes
    constructor
    · intro hne
      simp only [load_config, hroutes]
      rw [if_pos hne]
    · intro hnil
      simp only [load_config, hroutes]
      rw [if_neg (by simp [hnil])]
  · intro data kvs hroutes
    simp only [load_config, hroutes]

/-- Witness for C7: a stored list with one well-formed entry is adopted
verbatim. -/
theorem c7_load_config_amended_witness :
    (load_config (some (Json.obj [((r"routes").data, Json.arr
        [Json.obj [((r"pattern").data, Json.str (r"a").data),
                   ((r"target").data, Json.str (r"b").data)]])]))).routes =
      [Json.obj [((r"pattern").data, Json.str (r"a").data),
                 ((r"target").data, Json.str (r"b").data)]].filterMap toRule :=
  (c7_load_config_amended.2.1
    [((r"routes").data, Json.arr
      [Json.obj [((r"pattern").data, Json.str (r"a").data),
                 ((r"target").data, Json.str (r"b").data)]])]
    [Json.obj [((r"pattern").data, Json.str (r"a").data),
               ((r"target").data, Json.str (r"b").data)]]
    rfl).1 (by decide)

/-- C8 counterexample: `normalize_exts` is not idempotent as claimed.
On the input `"."` the output is `[""]` (the token survives the
non-empty trim check and is then emptied by the dot strip), and
re-normalizing the comma-join of that output yields `[]` instead. -/
theorem c8_counterexample :
    normalize_exts (joinWith [ ',' ] (normalize_exts (r".").data)) ≠
      normalize_exts (r".").data := by
  decide

/-- C8 (amended): re-normalizing is the identity on `normalize_exts`
output whenever every output token is non-empty and free of surrounding
whitespace (both can fail only for tokens whose trimmed form starts with
dots); `parse_keywords` is unconditionally idempotent on its output. -/
theorem c8_idempotence_amended :
    (∀ t : List Char, (∀ e ∈ normalize_exts t, e ≠ [] ∧ pyStrip e = e) →
      normalize_exts (joinWith [ ',' ] (normalize_exts t)) = normalize_exts t) ∧
    (∀ t : List Char,
      parse_keywords (joinWith [ ',' ] (parse_keywords t)) = parse_keywords t) :=
  ⟨fun _ H => normalize_exts_idem H, parse_keywords_idem⟩

/-- Witness for C8: a concrete input satisfying the hypothesis. -/
theorem c8_idempotence_amended_witness :
    (∀ e ∈ normalize_exts (r"pdf, txt").data, e ≠ [] ∧ pyStrip e = e) ∧
    normalize_exts (joinWith [ ',' ] (normalize_exts (r"pdf, txt").data)) =
      normalize_exts (r"pdf, txt").data :=
  ⟨by decide, c8_idempotence_amended.1 (r"pdf, txt").data (by decide)⟩

/-- C9 counterexample: `normalize_exts "."` contains the empty string,
so "every element is a non-empty string" fails. -/
theorem c9_counterexample :
    normalize_exts (r".").data = [[]] ∧
    ¬ (∀ e ∈ normalize_exts (r".").data, e ≠ []) := by
  decide

/-- C9 (amended): every element of `normalize_exts` is lowercase and
does not start with a dot (an element may be empty when its token was
all dots); `parse_keywords` has no duplicates and lists each distinct
trimmed keyword once, in order of first occurrence; both normalizers map
empty input to the empty list. -/
theorem c9_normalization_invariants :
    (∀ t : List Char, ∀ e ∈ normalize_exts t,
      pyLower e = e ∧ e.head? ≠ some '.') ∧
    (∀ t : List Char, (parse_keywords t).Nodup ∧
      parse_keywords t =
        dedupSpec (((splitRuns isKwSep (pyStrip t)).map pyStrip).filter
          (fun k => decide (k ≠ [])))) ∧
    normalize_exts [] = [] ∧ parse_keywords [] = [] := by
  refine ⟨?_, fun t => ⟨parse_keywords_nodup t, parse_keywords_eq t⟩, rfl, rfl⟩
  intro t e he
  obtain ⟨hlow, hcomma, hdot⟩ := normalize_elem_facts he
  refine ⟨hlow, ?_⟩
  intro hh
  have := hdot '.' hh
  simp at this

/-- Witness for C9: the invariants evaluated on a concrete element of a
concrete normalization. -/
theorem c9_normalization_invariants_witness :
    pyLower (r"pdf").data = (r"pdf").data ∧
    ((r"pdf").data).head? ≠ some '.' :=
  c9_normalization_invariants.1 (r".pdf, TXT").data (r"pdf").data (by decide)

end SFS

/-! Sanity examples mirroring the assertions of the repository `run_tests`
suite. -/

section UnitTests
open SFS

example : normalize_exts (r"pdf, txt ,.doc").data =
    [(r"pdf").data, (r"txt").data, (r"doc").data] := by decide

example : parse_keywords (r"试卷,练习 行测").data =
    [(r"试卷").data, (r"练习").data, (r"行测").data] := by decide

example : parse_keywords (r"a|b/c,d").data =
    [(r"a").data, (r"b").data, (r"c").data, (r"d").data] := by decide

example :
    match_routes_for_name (r"数学试卷2025.pdf").data
      [⟨(r"试卷|卷子").data, (r"试卷").data⟩, ⟨(r"数量|count").data, (r"数量").data⟩] =
      [((r"试卷|卷子").data, (r"试卷").data)] := by decide

example : file_matches (r"abc.PDF").data [] [(r"pdf").data] = true := by decide

example : normalize_exts (r".").data = [[]] := by decide

end UnitTests
